import Mathlib

/-!
# StreamShortcut (Cloudflare) — resolution and normalization core

A shallow embedding of the resolution engine of the `streamshortcut-cloudflare`
repository: the identifier parser `resolveId`, the state resolver
`resolveState`, the member resolver `resolveMember`, and the search-response
normalizer `normalizeSearchResponse`.  The two deployment variants of the
source contain the same logic; the embedding follows it statement by
statement.  JavaScript strings are modelled as Lean `String`/`List Char`
(`toLowerCase` as an ASCII character map, which is exact on the ASCII data
these functions handle), fallible functions return `Option`, and the
`throw new Error("Invalid ID")` branch of `resolveId` is modelled as `none`.
-/

namespace StreamShortcut

/-- Models `s.toLowerCase()`: lower-case every character. -/
def toLowerL (s : String) : List Char := s.data.map Char.toLower

/-- `startsWithL hay sub`: `sub` begins `hay` (character lists). -/
def startsWithL : List Char → List Char → Bool
  | _, [] => true
  | [], _ :: _ => false
  | c :: cs, d :: ds => c == d && startsWithL cs ds

/-- `hasSub hay sub` models JavaScript `hay.includes(sub)`:
`sub` occurs contiguously somewhere in `hay`. -/
def hasSub : List Char → List Char → Bool
  | [], sub => sub.isEmpty
  | c :: t, sub => startsWithL (c :: t) sub || hasSub t sub

/-! ## Data model (§3 of the source's API shapes) -/

/-- A workflow state: `{ id, name }` (the fields the resolver reads). -/
structure WorkflowState where
  id : Int
  name : String
deriving DecidableEq

/-- A workflow: an ordered list of states (the field the resolver reads). -/
structure Workflow where
  states : List WorkflowState
deriving DecidableEq

/-- A member profile: `{ name, mention_name }`. -/
structure MemberProfile where
  name : String
  mention_name : String
deriving DecidableEq

/-- A member: `{ id, profile }`. -/
structure Member where
  id : String
  profile : MemberProfile
deriving DecidableEq

/-! ## State resolution (`resolveState`)

Source (both variants):

```
for (const wf of workflows) {
  let match = wf.states.find((s) => s.name.toLowerCase() === lower);
  if (match) return match.id;
  match = wf.states.find((s) => s.name.toLowerCase().includes(lower));
  if (match) return match.id;
}
const aliases = { done: [...], "in progress": [...], ready: [...] };
for (const [canonical, alts] of Object.entries(aliases)) {
  if (alts.some((a) => lower.includes(a) || a.includes(lower))) {
    for (const wf of workflows) {
      const match = wf.states.find((s) => s.name.toLowerCase().includes(canonical));
      if (match) return match.id;
    }
  }
}
return null;
```
-/

/-- `wf.states.find((s) => s.name.toLowerCase() === lower)`. -/
def findExact (states : List WorkflowState) (lower : List Char) : Option WorkflowState :=
  states.find? (fun s => toLowerL s.name == lower)

/-- `wf.states.find((s) => s.name.toLowerCase().includes(lower))`. -/
def findSub (states : List WorkflowState) (lower : List Char) : Option WorkflowState :=
  states.find? (fun s => hasSub (toLowerL s.name) lower)

/-- The first `for (const wf of workflows)` loop: per workflow, exact match
then substring match, returning on the first hit. -/
def scanWorkflows (wfs : List Workflow) (lower : List Char) : Option Int :=
  match wfs with
  | [] => none
  | wf :: rest =>
    match findExact wf.states lower with
    | some s => some s.id
    | none =>
      match findSub wf.states lower with
      | some s => some s.id
      | none => scanWorkflows rest lower

/-- The fixed alias table, in `Object.entries` (insertion) order. -/
def aliasTable : List (String × List String) :=
  [("done", ["done", "complete", "completed", "finished", "deployed"]),
   ("in progress", ["in progress", "started", "doing", "wip", "in prog"]),
   ("ready", ["ready", "todo", "to do", "backlog", "open"])]

/-- The inner `for (const wf of workflows)` loop of the alias tier:
first state (workflows in order) whose lowered name contains `canonical`. -/
def scanCanonical (wfs : List Workflow) (canonical : List Char) : Option Int :=
  match wfs with
  | [] => none
  | wf :: rest =>
    match findSub wf.states canonical with
    | some s => some s.id
    | none => scanCanonical rest canonical

/-- The alias-tier loop over `Object.entries(aliases)`. -/
def aliasScan (entries : List (String × List String)) (wfs : List Workflow)
    (lower : List Char) : Option Int :=
  match entries with
  | [] => none
  | (canonical, alts) :: rest =>
    if alts.any (fun a => hasSub lower a.data || hasSub a.data lower) then
      match scanCanonical wfs canonical.data with
      | some i => some i
      | none => aliasScan rest wfs lower
    else aliasScan rest wfs lower

/-- `resolveState(stateName)` against an already-fetched workflow list;
`none` models the `null` ("not found") return. -/
def resolveState (wfs : List Workflow) (stateName : String) : Option Int :=
  let lower := toLowerL stateName
  match scanWorkflows wfs lower with
  | some i => some i
  | none => aliasScan aliasTable wfs lower

/-! ## Member resolution (`resolveMember`) -/

/-- The predicate of `members.find(...)`: display name or mention handle
contains the lowered input. -/
def memberMatches (lower : List Char) (m : Member) : Bool :=
  hasSub (toLowerL m.profile.name) lower || hasSub (toLowerL m.profile.mention_name) lower

/-- `resolveMember(input)`.  The source calls `getCurrentMember()` only inside
the `input === "me"` branch and `getMembers()` only after it; both fetches are
passed here as already-resolved values (`currentId`, `members`). -/
def resolveMember (currentId : String) (members : List Member) (input : String) :
    Option String :=
  if input = "me" then some currentId
  else ((members.find? (memberMatches (toLowerL input))).map Member.id)

/-! ## Identifier parsing (`resolveId`)

Source:

```
const urlMatch = input.match(/shortcut\.com\/[^/]+\/story\/(\d+)/i);
if (urlMatch) return parseInt(urlMatch[1], 10);
const epicUrlMatch = input.match(/shortcut\.com\/[^/]+\/epic\/(\d+)/i);
if (epicUrlMatch) return parseInt(epicUrlMatch[1], 10);
const numMatch = input.match(/(\d+)/);
if (numMatch) return parseInt(numMatch[1], 10);
throw new Error(`Invalid ID: ${input}`);
```

The two URL regexes are deterministic once the starting offset is fixed:
`[^/]+` must stop exactly at the next `/` (the following pattern character is
`/`), and the trailing greedy `\d+` captures the maximal digit run.  `match`
picks the leftmost starting offset that admits a match, modelled by scanning
the suffixes of the input left to right. -/

/-- Case-insensitive literal-token consumption: consume `tok` (compared
case-insensitively) from the front of `cs`, returning the rest. -/
def stripCI : List Char → List Char → Option (List Char)
  | cs, [] => some cs
  | [], _ :: _ => none
  | c :: cs, t :: ts => if c.toLower == t.toLower then stripCI cs ts else none

/-- `parseInt(ds, 10)` on a digit run. -/
def digitsToNat (ds : List Char) : Nat :=
  ds.foldl (fun acc c => acc * 10 + (c.toNat - 48)) 0

/-- Try to match `shortcut.com/[^/]+/<kw>/(\d+)` (case-insensitively) at the
start of `cs`, returning the captured digit run's value. -/
def tryUrlAt (cs : List Char) (kw : List Char) : Option Nat :=
  match stripCI cs "shortcut.com/".data with
  | none => none
  | some rest1 =>
    let seg := rest1.takeWhile (fun c => c != '/')
    if seg.isEmpty then none
    else
      match stripCI (rest1.drop seg.length) ('/' :: kw ++ ['/']) with
      | none => none
      | some rest2 =>
        let ds := rest2.takeWhile Char.isDigit
        if ds.isEmpty then none else some (digitsToNat ds)

/-- Leftmost-match search: try `tryUrlAt` at every suffix, left to right. -/
def scanUrl (kw : List Char) : List Char → Option Nat
  | [] => none
  | c :: cs =>
    match tryUrlAt (c :: cs) kw with
    | some n => some n
    | none => scanUrl kw cs

/-- `/(\d+)/`: the first maximal digit run in the input. -/
def firstDigitRun : List Char → Option (List Char)
  | [] => none
  | c :: cs => if c.isDigit then some ((c :: cs).takeWhile Char.isDigit)
               else firstDigitRun cs

/-- `resolveId(input)`; `none` models the thrown `Invalid ID` error. -/
def resolveId (input : String) : Option Nat :=
  match scanUrl "story".data input.data with
  | some n => some n
  | none =>
    match scanUrl "epic".data input.data with
    | some n => some n
    | none => (firstDigitRun input.data).map digitsToNat

/-! ## Response normalization (`normalizeSearchResponse`) -/

/-- A JSON value. -/
inductive Json where
  | null
  | bool (b : Bool)
  | num (n : Int)
  | str (s : String)
  | arr (elems : List Json)
  | obj (fields : List (String × Json))

/-- JavaScript property access `fields["data"]` on a plain object:
first binding wins (parsed JSON objects carry distinct keys). -/
def getField : List (String × Json) → String → Option Json
  | [], _ => none
  | (k, v) :: rest, key => if k = key then some v else getField rest key

/-- `normalizeSearchResponse(response)`:

```
if (Array.isArray(response)) return response;
if (response && typeof response === "object" && "data" in response) {
  const data = response.data;
  if (Array.isArray(data)) return data;
}
return [];
```

`Array.isArray` is the `.arr` case; `response && typeof response === "object"`
(with arrays already handled) is the `.obj` case. -/
def normalizeSearchResponse (response : Json) : List Json :=
  match response with
  | .arr elems => elems
  | .obj fields =>
    match getField fields "data" with
    | some (.arr elems) => elems
    | _ => []
  | _ => []

/-! ## Helper lemmas -/

theorem hasSub_nil (l : List Char) : hasSub l [] = true := by
  cases l <;> simp [hasSub, startsWithL]

theorem firstDigitRun_eq_none_iff (cs : List Char) :
    firstDigitRun cs = none ↔ ∀ c ∈ cs, c.isDigit = false := by
  induction cs with
  | nil => simp [firstDigitRun]
  | cons c cs ih =>
    by_cases hc : c.isDigit <;> simp [firstDigitRun, hc, ih]

theorem stripCI_sub (cs ts rest : List Char) (h : stripCI cs ts = some rest) :
    ∀ c ∈ rest, c ∈ cs := by
  induction cs generalizing ts rest with
  | nil =>
    cases ts with
    | nil => simp [stripCI] at h; subst h; intro c hc; exact hc
    | cons t ts => simp [stripCI] at h
  | cons c cs ih =>
    cases ts with
    | nil =>
      simp [stripCI] at h; subst h; intro x hx; exact hx
    | cons t ts =>
      simp only [stripCI] at h
      split at h
      · intro x hx
        exact List.mem_cons_of_mem _ (ih ts rest h x hx)
      · exact absurd h (by simp)

theorem tryUrlAt_none_of_no_digit (cs kw : List Char)
    (h : ∀ c ∈ cs, c.isDigit = false) : tryUrlAt cs kw = none := by
  unfold tryUrlAt
  cases hs : stripCI cs "shortcut.com/".data with
  | none => rfl
  | some rest1 =>
    simp only
    by_cases hseg : (rest1.takeWhile (fun c => c != '/')).isEmpty
    · simp [hseg]
    · simp only [hseg, if_neg, Bool.not_eq_true]
      cases hs2 : stripCI (rest1.drop (rest1.takeWhile (fun c => c != '/')).length)
          ('/' :: kw ++ ['/']) with
      | none => simp
      | some rest2 =>
        cases rest2 with
        | nil => simp [List.takeWhile]
        | cons c r =>
          have hc : c ∈ cs := by
            have h1 : c ∈ rest1.drop (rest1.takeWhile (fun c => c != '/')).length :=
              stripCI_sub _ _ _ hs2 c (List.mem_cons_self c r)
            exact stripCI_sub _ _ _ hs c (List.mem_of_mem_drop h1)
          have : c.isDigit = false := h c hc
          simp [List.takeWhile_cons, this]

theorem scanUrl_none_of_no_digit (kw cs : List Char)
    (h : ∀ c ∈ cs, c.isDigit = false) : scanUrl kw cs = none := by
  induction cs with
  | nil => rfl
  | cons c cs ih =>
    have hall : ∀ x ∈ c :: cs, x.isDigit = false := h
    simp [scanUrl, tryUrlAt_none_of_no_digit _ kw hall,
      ih (fun x hx => h x (List.mem_cons_of_mem _ hx))]

theorem scanWorkflows_eq_none (ws : List Workflow) (lower : List Char)
    (h : ∀ wf ∈ ws, findExact wf.states lower = none ∧ findSub wf.states lower = none) :
    scanWorkflows ws lower = none := by
  induction ws with
  | nil => rfl
  | cons wf rest ih =>
    have h1 := h wf (List.mem_cons_self _ _)
    simp [scanWorkflows, h1.1, h1.2,
      ih (fun w hw => h w (List.mem_cons_of_mem _ hw))]

theorem scanWorkflows_append (pre rest : List Workflow) (lower : List Char)
    (h : ∀ w ∈ pre, findExact w.states lower = none ∧ findSub w.states lower = none) :
    scanWorkflows (pre ++ rest) lower = scanWorkflows rest lower := by
  induction pre with
  | nil => rfl
  | cons w pre ih =>
    have h1 := h w (List.mem_cons_self _ _)
    simp [scanWorkflows, h1.1, h1.2,
      ih (fun w' hw' => h w' (List.mem_cons_of_mem _ hw'))]

theorem scanCanonical_eq_none (ws : List Workflow) (canon : List Char)
    (h : ∀ wf ∈ ws, findSub wf.states canon = none) :
    scanCanonical ws canon = none := by
  induction ws with
  | nil => rfl
  | cons wf rest ih =>
    simp [scanCanonical, h wf (List.mem_cons_self _ _),
      ih (fun w hw => h w (List.mem_cons_of_mem _ hw))]

theorem scanCanonical_isSome (ws : List Workflow) (canon : List Char)
    (h : ∃ wf ∈ ws, ∃ s ∈ wf.states, hasSub (toLowerL s.name) canon = true) :
    ∃ i, scanCanonical ws canon = some i := by
  induction ws with
  | nil => simp at h
  | cons wf rest ih =>
    cases hf : findSub wf.states canon with
    | some s => exact ⟨s.id, by simp [scanCanonical, hf]⟩
    | none =>
      rcases h with ⟨wf', hwf', s, hs, hmatch⟩
      rcases List.mem_cons.mp hwf' with heq | hmem
      · subst heq
        simp only [findSub] at hf
        exact absurd hmatch (List.find?_eq_none.mp hf s hs)
      · rcases ih ⟨wf', hmem, s, hs, hmatch⟩ with ⟨i, hi⟩
        exact ⟨i, by simp [scanCanonical, hf, hi]⟩

theorem aliasScan_cons_neg (c : String) (alts : List String)
    (rest : List (String × List String)) (wfs : List Workflow) (lower : List Char)
    (h : alts.any (fun a => hasSub lower a.data || hasSub a.data lower) = false) :
    aliasScan ((c, alts) :: rest) wfs lower = aliasScan rest wfs lower := by
  simp [aliasScan, h]

theorem aliasScan_cons_pos (c : String) (alts : List String)
    (rest : List (String × List String)) (wfs : List Workflow) (lower : List Char)
    (h : alts.any (fun a => hasSub lower a.data || hasSub a.data lower) = true) :
    aliasScan ((c, alts) :: rest) wfs lower =
      match scanCanonical wfs c.data with
      | some i => some i
      | none => aliasScan rest wfs lower := by
  simp [aliasScan, h]

theorem scanWorkflows_empty_ne_none (ws : List Workflow)
    (h : ∃ wf ∈ ws, wf.states ≠ []) :
    scanWorkflows ws [] ≠ none := by
  induction ws with
  | nil => simp at h
  | cons wf rest ih =>
    cases hst : wf.states with
    | nil =>
      have hfe : findExact wf.states [] = none := by
        unfold findExact; rw [hst]; rfl
      have hfs : findSub wf.states [] = none := by
        unfold findSub; rw [hst]; rfl
      have hrest : ∃ w ∈ rest, w.states ≠ [] := by
        rcases h with ⟨w, hw, hne⟩
        rcases List.mem_cons.mp hw with heq | hmem
        · subst heq; exact absurd hst hne
        · exact ⟨w, hmem, hne⟩
      simp only [scanWorkflows, hfe, hfs]
      exact ih hrest
    | cons s0 r =>
      cases hfe : findExact wf.states [] with
      | some s => simp [scanWorkflows, hfe]
      | none =>
        have hfs : findSub wf.states [] = some s0 := by
          unfold findSub; rw [hst]
          exact List.find?_cons_of_pos _ (hasSub_nil _)
        simp [scanWorkflows, hfe, hfs]

/-! ## Claims -/

/-- C5: `resolveId` fails (models `InvalidIdentifier`) exactly when the input
contains no digit character anywhere; whenever a digit run exists it succeeds
with a numeric id. -/
theorem resolveId_none_iff_no_digit (input : String) :
    resolveId input = none ↔ ∀ c ∈ input.data, c.isDigit = false := by
  constructor
  · intro h
    unfold resolveId at h
    cases h1 : scanUrl "story".data input.data with
    | some n => rw [h1] at h; exact absurd h (by simp)
    | none =>
      rw [h1] at h
      cases h2 : scanUrl "epic".data input.data with
      | some n => rw [h2] at h; exact absurd h (by simp)
      | none =>
        rw [h2] at h
        simp only [Option.map_eq_none'] at h
        exact (firstDigitRun_eq_none_iff _).mp h
  · intro h
    simp [resolveId, scanUrl_none_of_no_digit _ _ h,
      (firstDigitRun_eq_none_iff _).mpr h]

/-- C6: on the literal input `"me"`, `resolveMember` returns the current
identity's id, for every member list — the member list is never consulted
(the result is the same for any two member lists, including the empty one). -/
theorem resolveMember_me_bypasses_list (currentId : String)
    (ms ms' : List Member) :
    resolveMember currentId ms "me" = some currentId ∧
      resolveMember currentId ms "me" = resolveMember currentId ms' "me" :=
  ⟨rfl, rfl⟩

/-- C4: `normalizeSearchResponse` is total and shape-directed: an array is
returned unchanged, an object whose `data` field is an array yields that
array, and every other shape (null, string such as `"oops"`, object without
a suitable `data` field, booleans, numbers) yields the empty sequence. -/
theorem normalize_shape_spec :
    (∀ l, normalizeSearchResponse (Json.arr l) = l) ∧
    (∀ fs l, getField fs "data" = some (Json.arr l) →
        normalizeSearchResponse (Json.obj fs) = l) ∧
    (∀ fs, (∀ l, getField fs "data" ≠ some (Json.arr l)) →
        normalizeSearchResponse (Json.obj fs) = []) ∧
    normalizeSearchResponse Json.null = [] ∧
    (∀ s, normalizeSearchResponse (Json.str s) = []) ∧
    (∀ b, normalizeSearchResponse (Json.bool b) = []) ∧
    (∀ n, normalizeSearchResponse (Json.num n) = []) := by
  refine ⟨fun l => rfl, fun fs l h => by simp [normalizeSearchResponse, h],
    fun fs h => ?_, rfl, fun s => rfl, fun b => rfl, fun n => rfl⟩
  cases hg : getField fs "data" with
  | none => simp [normalizeSearchResponse, hg]
  | some v =>
    cases v <;> first
      | exact absurd hg (h _)
      | simp [normalizeSearchResponse, hg]

/-- Witness for C4 at concrete inputs: an object with `data: [1]` yields
`[1]`, and an object with no `data` field yields `[]`. -/
theorem normalize_shape_spec_witness :
    normalizeSearchResponse (Json.obj [("data", Json.arr [Json.num 1])]) = [Json.num 1] ∧
    normalizeSearchResponse (Json.obj [("other", Json.num 2)]) = [] :=
  ⟨normalize_shape_spec.2.1 _ _ rfl,
   normalize_shape_spec.2.2.1 [("other", Json.num 2)]
     (fun l h => by simp [getField] at h)⟩

/-- C9: `normalizeSearchResponse` is idempotent — its result is always an
ordered sequence, and normalizing a sequence returns it unchanged. -/
theorem normalize_idempotent (p : Json) :
    normalizeSearchResponse (Json.arr (normalizeSearchResponse p)) =
      normalizeSearchResponse p := rfl

/-- C1 counterexample: with an earlier workflow holding only the
substring-matching state `"done stuff"` (id 1) and a later workflow holding
the exact match `"done"` (id 2), `resolveState "done"` returns id 1, not the
id of the exact match — the exact tier is NOT consulted across all workflows
before substring matching. -/
theorem resolveState_globalExact_cex :
    resolveState [⟨[⟨1, "done stuff"⟩]⟩, ⟨[⟨2, "done"⟩]⟩] "done" = some 1 ∧
    findExact [⟨(2 : Int), "done"⟩] (toLowerL "done") = some ⟨2, "done"⟩ ∧
    (1 : Int) ≠ 2 := by
  refine ⟨by decide, by decide, by decide⟩

/-- C2 counterexample: against a single workflow whose only state is
`"Backlog"` (id 3), `resolveState "ready"` returns `none` (NotFound), not the
`"Backlog"` state's id — the alias tier searches state names for the
canonical label `"ready"`, which `"Backlog"` does not contain. -/
theorem resolveState_ready_backlog_cex :
    resolveState [⟨[⟨3, "Backlog"⟩]⟩] "ready" = none := by decide

/-- C3 counterexample: an input with a `/story/<digits>` path segment on a
non-`shortcut.com` host falls through to the first-digit-run fallback, which
picks the digit in the host: the result is 1, not 9001. -/
theorem resolveId_story_url_cex :
    resolveId "http://host1.com/org/story/9001" = some 1 ∧ (1 : Nat) ≠ 9001 := by
  refine ⟨by decide, by decide⟩

/-- C10 counterexample: with a first workflow whose states are `"A"` (id 1)
and a state literally named `""` (id 2), `resolveState ""` returns id 2 via
the exact tier (every state name lowercases to itself and `""` equals the
lowered input exactly), not the id of the first state. -/
theorem resolveState_empty_input_cex :
    resolveState [⟨[⟨1, "A"⟩, ⟨2, ""⟩]⟩] "" = some 2 ∧ (2 : Int) ≠ 1 := by
  refine ⟨by decide, by decide⟩

/-- C1 (amended): workflows are scanned once in order, each workflow trying
its exact tier then its substring tier before the scan moves on — so the
first workflow with any match decides, with exact preferred over substring
only within that workflow. -/
theorem resolveState_per_workflow_tiers (pre : List Workflow) (wf : Workflow)
    (post : List Workflow) (name : String)
    (hpre : ∀ w ∈ pre, findExact w.states (toLowerL name) = none ∧
        findSub w.states (toLowerL name) = none)
    (hwf : findExact wf.states (toLowerL name) ≠ none ∨
        findSub wf.states (toLowerL name) ≠ none) :
    resolveState (pre ++ wf :: post) name =
      match findExact wf.states (toLowerL name) with
      | some s => some s.id
      | none => Option.map WorkflowState.id (findSub wf.states (toLowerL name)) := by
  simp only [resolveState]
  rw [scanWorkflows_append pre (wf :: post) _ hpre]
  cases hfe : findExact wf.states (toLowerL name) with
  | some s => simp [scanWorkflows, hfe]
  | none =>
    cases hfs : findSub wf.states (toLowerL name) with
    | some s => simp [scanWorkflows, hfe, hfs]
    | none =>
      rcases hwf with h | h
      · exact absurd hfe h
      · exact absurd hfs h

/-- Witness for C1's amended theorem at the counterexample's input: the
earlier workflow's substring match (id 1) wins. -/
theorem resolveState_per_workflow_tiers_witness :
    resolveState [⟨[⟨1, "done stuff"⟩]⟩, ⟨[⟨2, "done"⟩]⟩] "done" = some 1 := by
  have h := resolveState_per_workflow_tiers [] ⟨[⟨1, "done stuff"⟩]⟩
      [⟨[⟨2, "done"⟩]⟩] "done" (by simp) (Or.inr (by decide))
  exact h.trans (by decide)

/-- C2 (amended): against workflows all of whose states are named
`"Backlog"`, `resolveState "ready"` returns `none`: the "ready" alias family
is triggered (its synonym list contains "ready" itself), but the alias
re-scan looks for state names containing the canonical label `"ready"`,
which `"Backlog"` does not. -/
theorem resolveState_ready_backlog_notFound (ws : List Workflow)
    (h : ∀ wf ∈ ws, ∀ s ∈ wf.states, s.name = "Backlog") :
    resolveState ws "ready" = none := by
  have hlow : toLowerL "ready" = "ready".data := by decide
  have hex : ∀ wf ∈ ws, findExact wf.states "ready".data = none ∧
      findSub wf.states "ready".data = none := by
    intro wf hwf
    constructor
    · unfold findExact
      apply List.find?_eq_none.mpr
      intro s hs
      simp only [h wf hwf s hs]
      decide
    · unfold findSub
      apply List.find?_eq_none.mpr
      intro s hs
      simp only [h wf hwf s hs]
      decide
  have hscan := scanWorkflows_eq_none ws _ hex
  have hcanon : scanCanonical ws "ready".data = none := by
    apply scanCanonical_eq_none
    intro wf hwf
    unfold findSub
    apply List.find?_eq_none.mpr
    intro s hs
    simp only [h wf hwf s hs]
    decide
  simp only [resolveState, hlow, hscan]
  simp only [aliasTable]
  rw [aliasScan_cons_neg _ _ _ _ _ (by decide)]
  rw [aliasScan_cons_neg _ _ _ _ _ (by decide)]
  rw [aliasScan_cons_pos _ _ _ _ _ (by decide)]
  rw [hcanon]
  rfl

/-- Witness for C2's amended theorem at a concrete workflow list. -/
theorem resolveState_ready_backlog_notFound_witness :
    resolveState [⟨[⟨3, "Backlog"⟩]⟩] "ready" = none :=
  resolveState_ready_backlog_notFound [⟨[⟨3, "Backlog"⟩]⟩] (by decide)

/-- C7: when neither the exact nor the substring tier matches `"wip"` in any
workflow but some state is named `"In Progress"`, `resolveState "wip"`
resolves through the alias tier (the "in progress" family contains the
synonym "wip"; the "done" family is not triggered) and returns the id of the
first state, workflows in order, whose name contains `"in progress"`
case-insensitively — which the `"In Progress"` state guarantees to exist. -/
theorem resolveState_wip_alias (ws : List Workflow)
    (h1 : ∀ wf ∈ ws, findExact wf.states "wip".data = none ∧
        findSub wf.states "wip".data = none)
    (h2 : ∃ wf ∈ ws, ∃ s ∈ wf.states, s.name = "In Progress") :
    ∃ i, scanCanonical ws "in progress".data = some i ∧
      resolveState ws "wip" = some i := by
  have hlow : toLowerL "wip" = "wip".data := by decide
  have hnone : scanWorkflows ws "wip".data = none := scanWorkflows_eq_none ws _ h1
  have hcanon : ∃ i, scanCanonical ws "in progress".data = some i := by
    apply scanCanonical_isSome
    rcases h2 with ⟨wf, hwf, s, hs, hname⟩
    exact ⟨wf, hwf, s, hs, by rw [hname]; decide⟩
  rcases hcanon with ⟨i, hi⟩
  refine ⟨i, hi, ?_⟩
  simp only [resolveState, hlow, hnone]
  simp only [aliasTable]
  rw [aliasScan_cons_neg _ _ _ _ _ (by decide)]
  rw [aliasScan_cons_pos _ _ _ _ _ (by decide)]
  rw [hi]

/-- Witness for C7 at a concrete workflow list: `"wip"` resolves to the
`"In Progress"` state's id 7. -/
theorem resolveState_wip_alias_witness :
    resolveState [⟨[⟨5, "Backlog"⟩, ⟨7, "In Progress"⟩]⟩] "wip" = some 7 := by
  have h := resolveState_wip_alias [⟨[⟨5, "Backlog"⟩, ⟨7, "In Progress"⟩]⟩]
      (by decide)
      ⟨⟨[⟨5, "Backlog"⟩, ⟨7, "In Progress"⟩]⟩, by simp, ⟨7, "In Progress"⟩, by simp, rfl⟩
  rcases h with ⟨i, hi, hres⟩
  have : i = 7 := by
    have h7 : scanCanonical [⟨[⟨5, "Backlog"⟩, ⟨7, "In Progress"⟩]⟩] "in progress".data
        = some 7 := by decide
    rw [h7] at hi
    exact (Option.some_inj.mp hi.symm)
  subst this
  exact hres

/-- C8: for inputs other than `"me"`, `resolveMember` returns the id of the
first member in list order whose display name or mention handle contains the
input case-insensitively — no exact-match tier precedes the substring scan —
and `none` (NotFound) exactly when no member of the full list matches. -/
theorem resolveMember_substring_first (cur : String) (ms : List Member)
    (input : String) (hne : input ≠ "me") :
    (∀ mid, resolveMember cur ms input = some mid ↔
      ∃ m pr su, ms = pr ++ m :: su ∧ m.id = mid ∧
        memberMatches (toLowerL input) m = true ∧
        ∀ m' ∈ pr, memberMatches (toLowerL input) m' = false) ∧
    (resolveMember cur ms input = none ↔
      ∀ m ∈ ms, memberMatches (toLowerL input) m = false) := by
  constructor
  · intro mid
    simp only [resolveMember, if_neg hne, Option.map_eq_some']
    constructor
    · rintro ⟨m, hfind, hid⟩
      rcases List.find?_eq_some.mp hfind with ⟨hp, pr, su, heq, hprev⟩
      exact ⟨m, pr, su, heq, hid, hp,
        fun m' hm' => by simpa using hprev m' hm'⟩
    · rintro ⟨m, pr, su, heq, hid, hp, hprev⟩
      refine ⟨m, List.find?_eq_some.mpr ⟨hp, pr, su, heq, ?_⟩, hid⟩
      intro a ha
      simp [hprev a ha]
  · simp only [resolveMember, if_neg hne, Option.map_eq_none']
    rw [List.find?_eq_none]
    constructor
    · intro h m hm
      simpa using h m hm
    · intro h m hm
      simp [h m hm]

/-- Witness for C8: input `"al"` matches the first member `"Alice Malcolm"`
by substring even though the second member `"Al"`/`"al"` is a case-insensitive
exact match — the first substring hit wins. -/
theorem resolveMember_substring_first_witness :
    resolveMember "cur" [⟨"u1", ⟨"Alice Malcolm", "amal"⟩⟩, ⟨"u2", ⟨"Al", "al"⟩⟩]
      "al" = some "u1" :=
  ((resolveMember_substring_first "cur"
      [⟨"u1", ⟨"Alice Malcolm", "amal"⟩⟩, ⟨"u2", ⟨"Al", "al"⟩⟩] "al"
      (by decide)).1 "u1").mpr
    ⟨⟨"u1", ⟨"Alice Malcolm", "amal"⟩⟩, [], [⟨"u2", ⟨"Al", "al"⟩⟩], rfl, rfl,
      by decide, by simp⟩

/-- C10 (amended): on the empty-string input, `resolveState` never returns
`none` when some workflow has a state; and it returns the id of the first
state of the first non-empty workflow provided no state of that workflow is
named `""` (such a state would win the exact tier instead). -/
theorem resolveState_empty_input_spec :
    (∀ ws : List Workflow, (∃ wf ∈ ws, wf.states ≠ []) →
        resolveState ws "" ≠ none) ∧
    (∀ (pre : List Workflow) (wf : Workflow) (post : List Workflow)
        (s0 : WorkflowState) (r : List WorkflowState),
      (∀ w ∈ pre, w.states = []) → wf.states = s0 :: r →
      (∀ s ∈ wf.states, s.name ≠ "") →
      resolveState (pre ++ wf :: post) "" = some s0.id) := by
  have hlow : toLowerL "" = [] := rfl
  constructor
  · intro ws h
    have hne := scanWorkflows_empty_ne_none ws h
    simp only [resolveState, hlow]
    cases hs : scanWorkflows ws [] with
    | none => exact absurd hs hne
    | some i => simp
  · intro pre wf post s0 r hpre hwf hne
    have hpre' : ∀ w ∈ pre, findExact w.states [] = none ∧ findSub w.states [] = none := by
      intro w hw
      constructor
      · unfold findExact; rw [hpre w hw]; rfl
      · unfold findSub; rw [hpre w hw]; rfl
    have hfe : findExact wf.states [] = none := by
      unfold findExact
      apply List.find?_eq_none.mpr
      intro s hs
      simp only [beq_iff_eq]
      intro heq
      apply hne s hs
      exact String.ext (List.map_eq_nil_iff.mp heq)
    have hfs : findSub wf.states [] = some s0 := by
      unfold findSub; rw [hwf]
      exact List.find?_cons_of_pos _ (hasSub_nil _)
    simp only [resolveState, hlow]
    rw [scanWorkflows_append pre (wf :: post) [] hpre']
    simp [scanWorkflows, hfe, hfs]

/-- Witness for C10's amended theorem: the first state (id 4) of the only
workflow is returned on the empty input. -/
theorem resolveState_empty_input_spec_witness :
    resolveState [⟨[⟨4, "Todo"⟩, ⟨5, "Done"⟩]⟩] "" = some 4 := by
  have h := resolveState_empty_input_spec.2 [] ⟨[⟨4, "Todo"⟩, ⟨5, "Done"⟩]⟩ []
      ⟨4, "Todo"⟩ [⟨5, "Done"⟩] (by simp) rfl (by decide)
  simpa using h

theorem stripCI_append_self (tok rest : List Char) :
    stripCI (tok ++ rest) tok = some rest := by
  induction tok with
  | nil => simp [stripCI]
  | cons t ts ih => simp [stripCI, ih]

theorem takeWhile_append_all (p : Char → Bool) (l1 l2 : List Char)
    (h1 : ∀ c ∈ l1, p c = true) :
    (l1 ++ l2).takeWhile p = l1 ++ l2.takeWhile p := by
  induction l1 with
  | nil => rfl
  | cons c cs ih =>
    simp [List.takeWhile_cons, h1 c (List.mem_cons_self _ _),
      ih (fun x hx => h1 x (List.mem_cons_of_mem _ hx))]

theorem takeWhile_head_neg (p : Char → Bool) (l : List Char)
    (h : ∀ c ∈ l.take 1, p c = false) : l.takeWhile p = [] := by
  cases l with
  | nil => rfl
  | cons c cs => simp [List.takeWhile_cons, h c (by simp)]

theorem tryUrlAt_pattern (seg ds suf : List Char)
    (hsegne : seg ≠ []) (hseg : ∀ c ∈ seg, c ≠ '/')
    (hdsne : ds ≠ []) (hds : ∀ c ∈ ds, c.isDigit = true)
    (hsuf : ∀ c ∈ suf.take 1, c.isDigit = false) :
    tryUrlAt ("shortcut.com/".data ++ (seg ++ ("/story/".data ++ (ds ++ suf))))
      "story".data = some (digitsToNat ds) := by
  have hstrip1 := stripCI_append_self "shortcut.com/".data
    (seg ++ ("/story/".data ++ (ds ++ suf)))
  have htake : (seg ++ ("/story/".data ++ (ds ++ suf))).takeWhile
      (fun c => c != '/') = seg := by
    rw [takeWhile_append_all _ _ _ (fun c hc => by simp [hseg c hc])]
    rw [show ("/story/".data ++ (ds ++ suf)) = '/' :: ("story/".data ++ (ds ++ suf))
      from rfl]
    simp [List.takeWhile_cons]
  have hsegE : seg.isEmpty = false := by
    cases seg with
    | nil => exact absurd rfl hsegne
    | cons c cs => rfl
  have hstrip2 : stripCI (['/', 's', 't', 'o', 'r', 'y', '/'] ++ (ds ++ suf))
      (['/', 's', 't', 'o', 'r', 'y'] ++ ['/']) = some (ds ++ suf) := by
    rw [show ((['/', 's', 't', 'o', 'r', 'y'] ++ ['/']) : List Char)
      = ['/', 's', 't', 'o', 'r', 'y', '/'] from rfl]
    exact stripCI_append_self _ _
  have htd : (ds ++ suf).takeWhile Char.isDigit = ds := by
    rw [takeWhile_append_all _ _ _ hds, takeWhile_head_neg _ _ hsuf,
      List.append_nil]
  have hdsE : ds.isEmpty = false := by
    cases ds with
    | nil => exact absurd rfl hdsne
    | cons c cs => rfl
  simp only [tryUrlAt, hstrip1, htake, hsegE, Bool.false_eq_true, if_false]
  rw [List.drop_left, hstrip2]
  simp only [htd, hdsE, Bool.false_eq_true, if_false]

theorem scanUrl_eq_of_first (kw cs t0 : List Char) (v : Nat)
    (hsuffix : t0 <:+ cs)
    (hhit : tryUrlAt t0 kw = some v)
    (hbefore : ∀ t, t <:+ cs → t0.length < t.length → tryUrlAt t kw = none) :
    scanUrl kw cs = some v := by
  induction cs with
  | nil =>
    have h0 : t0 = [] := List.suffix_nil.mp hsuffix
    rw [h0] at hhit
    exact absurd hhit (by simp [tryUrlAt, stripCI])
  | cons c cs ih =>
    cases h : tryUrlAt (c :: cs) kw with
    | some w =>
      have hlen : t0.length ≤ (c :: cs).length := hsuffix.length_le
      have hnlt : ¬ t0.length < (c :: cs).length := by
        intro hlt
        have hnone := hbefore (c :: cs) List.suffix_rfl hlt
        rw [h] at hnone
        exact Option.noConfusion hnone
      have heq : t0 = c :: cs :=
        hsuffix.eq_of_length (Nat.le_antisymm hlen (Nat.not_lt.mp hnlt))
      rw [heq] at hhit
      rw [hhit] at h
      simp [scanUrl, h, hhit]
    | none =>
      have ht0 : t0 <:+ cs := by
        rcases hsuffix with ⟨p, hp⟩
        cases p with
        | nil =>
          simp at hp
          rw [hp] at hhit
          rw [hhit] at h
          exact Option.noConfusion h
        | cons x xs =>
          injection hp with hx hxs
          exact ⟨xs, hxs⟩
      have hbefore' : ∀ t, t <:+ cs → t0.length < t.length → tryUrlAt t kw = none :=
        fun t ht hlt => hbefore t (ht.trans (List.suffix_cons c cs)) hlt
      simp [scanUrl, h, ih ht0 hbefore']

/-- C3 (amended): for every input whose character data decomposes as
`pre ++ "shortcut.com/" ++ seg ++ "/story/" ++ ds ++ suf` — with `seg` a
non-empty slash-free path segment, `ds` a non-empty digit run not extended by
`suf`, and no story-URL match starting earlier in the string — `resolveId`
returns exactly `ds` as a number, regardless of any other digit sequences in
the surrounding noise.  (A bare `/story/<digits>` segment without the
`shortcut.com/` host does not take this path: it falls to the first-digit-run
fallback, per the counterexample.) -/
theorem resolveId_story_url (input : String) (pre seg ds suf : List Char)
    (hdecomp : input.data =
      pre ++ ("shortcut.com/".data ++ (seg ++ ("/story/".data ++ (ds ++ suf)))))
    (hsegne : seg ≠ []) (hseg : ∀ c ∈ seg, c ≠ '/')
    (hdsne : ds ≠ []) (hds : ∀ c ∈ ds, c.isDigit = true)
    (hsuf : ∀ c ∈ suf.take 1, c.isDigit = false)
    (hleft : ∀ t ∈ input.data.tails,
      ("shortcut.com/".data ++ (seg ++ ("/story/".data ++ (ds ++ suf)))).length
          < t.length →
      tryUrlAt t "story".data = none) :
    resolveId input = some (digitsToNat ds) := by
  have hsuffix : ("shortcut.com/".data ++ (seg ++ ("/story/".data ++ (ds ++ suf))))
      <:+ input.data := ⟨pre, hdecomp.symm⟩
  have hhit := tryUrlAt_pattern seg ds suf hsegne hseg hdsne hds hsuf
  have hscan : scanUrl "story".data input.data = some (digitsToNat ds) :=
    scanUrl_eq_of_first _ _ _ _ hsuffix hhit
      (fun t ht hlt => hleft t ((List.mem_tails _ _).mpr ht) hlt)
  simp [resolveId, hscan]

/-- Witness for C3's amended theorem at the spec's own example URL. -/
theorem resolveId_story_url_witness :
    resolveId "https://app.shortcut.com/org/story/9001?x=5" = some 9001 := by
  have h := resolveId_story_url "https://app.shortcut.com/org/story/9001?x=5"
      "https://app.".data "org".data "9001".data "?x=5".data
      (by decide) (by decide) (by decide) (by decide) (by decide) (by decide)
      (by decide)
  exact h.trans (by decide)

end StreamShortcut
